import Mathlib

/-!
Shallow embedding of the `beetle_collatz` crate (Collatz step counting,
trajectory folding, range scanning and record tracking).

Machine integers are modelled as `Nat`; the `u128` arithmetic of the crate
never overflows on the inputs exercised here, and the one function that uses
checked arithmetic (`rules::odd_rule`) is modelled with an explicit width
parameter `w` and `% 2 ^ w`-style bounds checks.  Loops whose termination
depends on the Collatz conjecture are modelled with an explicit fuel
parameter and return `Option` results: `none` means the fuel ran out (or, in
`check_range_omega_all_odds`, that an `assert!` fired).
-/

/-- Embedding of `rules::basic` / the `rules` trait method: one application of the Collatz
rules.  If `n` is odd the result is `3 * n + 1`, otherwise `n / 2`. -/
def rules (n : Nat) : Nat := if n % 2 = 1 then 3 * n + 1 else n / 2

/-- Embedding of `rules::halve_odds`: like `rules`, but an odd `n` is mapped to
`(3 * n + 1) / 2`, i.e. the odd rule followed by one halving. -/
def rules_halve_odds (n : Nat) : Nat :=
  if n % 2 = 1 then (3 * n + 1) / 2 else n / 2

/-- Fuel-bounded helper for the trailing-zero count (`u128::trailing_zeros`).
The fuel `f` bounds the number of halvings inspected. -/
def ctzAux : Nat → Nat → Nat
  | 0, _ => 0
  | f + 1, n => if n % 2 = 1 ∨ n = 0 then 0 else ctzAux f (n / 2) + 1

/-- Number of trailing zero bits of `n` (for `n > 0`); `n` itself is always
enough fuel since a positive `n` has fewer than `n` trailing zero bits. -/
def ctz (n : Nat) : Nat := ctzAux n n

/-- Embedding of `divide_while_even`: shift `n` right by its number of trailing zero
bits, i.e. divide by 2 until odd. -/
def divide_while_even (n : Nat) : Nat := n >>> ctz n

/-- Loop of `steps::alpha`: one fuel unit per iteration of the Rust `while`
loop (an odd iteration performs `3n+1` and the following halving, adding 2
to the step counter; an even iteration halves, adding 1). -/
def alphaLoop : Nat → Nat → Nat → Option Nat
  | 0, n, s => if n = 1 then some s else none
  | f + 1, n, s =>
    if n = 1 then some s
    else if n % 2 = 1 then alphaLoop f ((3 * n + 1) / 2) (s + 2)
    else alphaLoop f (n / 2) (s + 1)

/-- Embedding of `steps::alpha`: the naive reference step counter. -/
def steps_alpha (f n : Nat) : Option Nat := alphaLoop f n 0

/-- Loop of `steps::omega_n_is_odd`: each iteration applies the odd rule and
then strips all trailing zeros at once, adding `zeros + 1` steps. -/
def omegaOddLoop : Nat → Nat → Nat → Option Nat
  | 0, n, s => if n = 1 then some s else none
  | f + 1, n, s =>
    if n = 1 then some s
    else
      omegaOddLoop f ((3 * n + 1) >>> ctz (3 * n + 1))
        (s + (ctz (3 * n + 1) + 1))

/-- Embedding of `steps::omega_n_is_odd`. -/
def steps_omega_n_is_odd (f n : Nat) : Option Nat := omegaOddLoop f n 0

/-- Embedding of `steps::omega_n_is_even`: count the trailing zeros as steps, strip them,
then delegate to the odd-specialised counter. -/
def steps_omega_n_is_even (f n : Nat) : Option Nat :=
  (steps_omega_n_is_odd f (divide_while_even n)).map (fun s => ctz n + s)

/-- Embedding of `steps::omega`: parity dispatch between the two specialised counters. -/
def steps_omega (f n : Nat) : Option Nat :=
  if n % 2 = 1 then steps_omega_n_is_odd f n else steps_omega_n_is_even f n

/-- Loop of `transformations` (`transformations_to_one`): the list of values
from `n` down to `1`, one `rules` application per element. -/
def transLoop : Nat → Nat → Option (List Nat)
  | 0, n => if n = 1 then some [1] else none
  | f + 1, n =>
    if n = 1 then some [1]
    else (transLoop f (rules n)).map (fun l => n :: l)

/-- Embedding of `transformations` / `transformations_to_one`. -/
def transformations (f n : Nat) : Option (List Nat) := transLoop f n

/-- Loop of `decrease_steps::alpha`: keep applying `rules` while the current
value is still `≥` the starting value. -/
def decreaseLoop : Nat → Nat → Nat → Nat → Option Nat
  | 0, start, n, s => if n < start then some s else none
  | f + 1, start, n, s =>
    if n < start then some s
    else decreaseLoop f start (rules n) (s + 1)

/-- Embedding of `decrease_steps::alpha`: steps until the value drops below its start. -/
def decrease_steps_alpha (f n : Nat) : Option Nat := decreaseLoop f n n 0

/-- Embedding of `fall::omega_n_is_odd`: loop until `3 * n + 1` has more than one
trailing zero bit (at which point the value is about to decrease). -/
def fall_omega_n_is_odd : Nat → Nat → Option Unit
  | 0, _ => none
  | f + 1, n =>
    if 1 < ctz (3 * n + 1) then some ()
    else fall_omega_n_is_odd f ((3 * n + 1) / 2)

/-- The element list visited by `(start..stop).step_by(step)`. -/
def stepRange (start stop step : Nat) : List Nat :=
  List.range' start ((stop - start + step - 1) / step) step

/-- Run `fall::omega_n_is_odd` on every element; `none` if any run exhausts
its fuel. -/
def runFalls (f : Nat) : List Nat → Option Bool
  | [] => some true
  | x :: rest =>
    match fall_omega_n_is_odd f x with
    | none => none
    | some _ => runFalls f rest

/-- Embedding of `check_range_omega_all_odds` from `lib.rs`: asserts that `step` is odd
and `start < stop` (a failed assertion, modelled as `none`, is a panic),
then runs `fall::omega_n_is_odd` on every visited value. -/
def check_range_omega_all_odds (f start stop step : Nat) : Option Bool :=
  if step % 2 = 1 then
    if start < stop then runFalls f (stepRange start stop step)
    else none
  else none

/-- Embedding of `checked_mul` of a `w`-bit unsigned integer type. -/
def checked_mul (w a b : Nat) : Option Nat :=
  if a * b < 2 ^ w then some (a * b) else none

/-- Embedding of `checked_add` of a `w`-bit unsigned integer type. -/
def checked_add (w a b : Nat) : Option Nat :=
  if a + b < 2 ^ w then some (a + b) else none

/-- Embedding of `rules::odd_rule` over a `w`-bit unsigned integer type: checked
`n * 3` followed by checked `+ 1`. -/
def odd_rule (w n : Nat) : Option Nat :=
  match checked_mul w n 3 with
  | none => none
  | some m => checked_add w m 1

/-- Loop of `bouncy_numbers::alpha` / `bouncy_numbers::basic`: fold the range
keeping the running record `(record_number, record_steps)`, replaced only on
a strictly greater step count. -/
def bouncyAlphaLoop (f : Nat) : List Nat → Nat → Nat → Option (Nat × Nat)
  | [], rn, rs => some (rn, rs)
  | i :: rest, rn, rs =>
    match steps_omega f i with
    | none => none
    | some s =>
      if rs < s then bouncyAlphaLoop f rest i s
      else bouncyAlphaLoop f rest rn rs

/-- Embedding of `bouncy_numbers::alpha` (`find_max_record`): the record starts at `(0, 0)`. -/
def bouncy_numbers_alpha (f start stop : Nat) : Option (Nat × Nat) :=
  bouncyAlphaLoop f (List.range' start (stop - start)) 0 0

/-- Loop of `bouncy_numbers::calculate_bouncy_sequence`: emit each pair that
sets a new strict step-count record. -/
def bouncySeqLoop (f : Nat) : List Nat → Nat → Option (List (Nat × Nat))
  | [], _ => some []
  | i :: rest, rs =>
    match steps_omega f i with
    | none => none
    | some s =>
      if rs < s then (bouncySeqLoop f rest s).map (fun l => (i, s) :: l)
      else bouncySeqLoop f rest rs

/-- Embedding of `bouncy_numbers::calculate_bouncy_sequence` (`enumerate_records`). -/
def calculate_bouncy_sequence (f start stop : Nat) : Option (List (Nat × Nat)) :=
  bouncySeqLoop f (List.range' start (stop - start)) 0

/-! ### Trailing-zero count: basic facts -/

lemma ctzAux_zero_val : ∀ f, ctzAux f 0 = 0 := by
  intro f
  cases f <;> simp [ctzAux]

lemma ctzAux_congr : ∀ f g n, n ≤ f → n ≤ g → ctzAux f n = ctzAux g n := by
  intro f
  induction f with
  | zero =>
    intro g n hf _
    have : n = 0 := Nat.le_zero.mp hf
    subst this
    rw [ctzAux_zero_val, ctzAux_zero_val]
  | succ f ih =>
    intro g n hf hg
    rcases Nat.eq_zero_or_pos n with h0 | h0
    · subst h0; rw [ctzAux_zero_val, ctzAux_zero_val]
    rcases Nat.lt_or_ge n 1 with h1 | h1
    · omega
    obtain ⟨g', rfl⟩ : ∃ g', g = g' + 1 := ⟨g - 1, by omega⟩
    by_cases hodd : n % 2 = 1
    · simp [ctzAux, hodd]
    · have hn2 : 2 ≤ n := by omega
      have hrec : n / 2 ≤ f ∧ n / 2 ≤ g' := by omega
      simp only [ctzAux, hodd, false_or]
      rw [if_neg (by omega), if_neg (by omega)]
      rw [ih g' (n / 2) hrec.1 hrec.2]

lemma ctz_odd {n : Nat} (h : n % 2 = 1) : ctz n = 0 := by
  have h1 : 1 ≤ n := by omega
  obtain ⟨m, rfl⟩ : ∃ m, n = m + 1 := ⟨n - 1, by omega⟩
  simp [ctz, ctzAux, h]

lemma ctz_even {n : Nat} (h0 : 0 < n) (h : n % 2 = 0) :
    ctz n = ctz (n / 2) + 1 := by
  have h2 : 2 ≤ n := by omega
  obtain ⟨m, rfl⟩ : ∃ m, n = m + 1 := ⟨n - 1, by omega⟩
  have step : ctzAux (m + 1) (m + 1) = ctzAux m ((m + 1) / 2) + 1 := by
    simp only [ctzAux]
    rw [if_neg (by omega : ¬((m + 1) % 2 = 1 ∨ m + 1 = 0))]
  have c1 : ctzAux m ((m + 1) / 2) = ctzAux ((m + 1) / 2) ((m + 1) / 2) :=
    ctzAux_congr m ((m + 1) / 2) ((m + 1) / 2) (by omega) le_rfl
  show ctzAux (m + 1) (m + 1) = ctzAux ((m + 1) / 2) ((m + 1) / 2) + 1
  rw [step, c1]

lemma ctz_pos_of_even {n : Nat} (h0 : 0 < n) (h : n % 2 = 0) : 1 ≤ ctz n := by
  rw [ctz_even h0 h]; omega

/-- The trailing-zero decomposition: stripping `ctz n` trailing zeros leaves
an odd number, and multiplying back recovers `n`. -/
lemma ctz_spec : ∀ n, 0 < n →
    (n / 2 ^ ctz n) % 2 = 1 ∧ (n / 2 ^ ctz n) * 2 ^ ctz n = n := by
  intro n
  induction n using Nat.strong_induction_on with
  | _ n ih =>
    intro h0
    by_cases hodd : n % 2 = 1
    · rw [ctz_odd hodd]
      simpa using hodd
    · have heven : n % 2 = 0 := by omega
      have h2 : 2 ≤ n := by omega
      rw [ctz_even h0 heven]
      have hlt : n / 2 < n := by omega
      have hpos : 0 < n / 2 := by omega
      obtain ⟨hodd', hmul'⟩ := ih (n / 2) hlt hpos
      have hdiv : n / 2 ^ (ctz (n / 2) + 1) = (n / 2) / 2 ^ ctz (n / 2) := by
        rw [pow_succ]
        rw [Nat.div_div_eq_div_mul, Nat.mul_comm]
      constructor
      · rw [hdiv]; exact hodd'
      · rw [hdiv, pow_succ, ← Nat.mul_assoc, hmul']
        omega

lemma shiftRight_eq_div (n k : Nat) : n >>> k = n / 2 ^ k :=
  Nat.shiftRight_eq_div_pow n k

/-! ### The naive counter `steps::alpha`: basic loop lemmas -/

lemma alphaLoop_one : ∀ f s, alphaLoop f 1 s = some s := by
  intro f s; cases f <;> simp [alphaLoop]

lemma alphaLoop_mono : ∀ f g n s r, f ≤ g → alphaLoop f n s = some r →
    alphaLoop g n s = some r := by
  intro f
  induction f with
  | zero =>
    intro g n s r _ h
    by_cases h1 : n = 1
    · subst h1
      rw [alphaLoop_one] at h
      rw [alphaLoop_one]
      exact h
    · simp [alphaLoop, h1] at h
  | succ f ih =>
    intro g n s r hle h
    by_cases h1 : n = 1
    · subst h1
      rw [alphaLoop_one] at h
      rw [alphaLoop_one]
      exact h
    · obtain ⟨g', rfl⟩ : ∃ g', g = g' + 1 := ⟨g - 1, by omega⟩
      have hf : f ≤ g' := by omega
      simp only [alphaLoop, if_neg h1] at h ⊢
      by_cases hodd : n % 2 = 1
      · rw [if_pos hodd] at h ⊢; exact ih g' _ _ _ hf h
      · rw [if_neg hodd] at h ⊢; exact ih g' _ _ _ hf h

lemma alphaLoop_det {f g n s r r' : Nat} (h : alphaLoop f n s = some r)
    (h' : alphaLoop g n s = some r') : r = r' := by
  have h1 := alphaLoop_mono f (max f g) n s r (le_max_left f g) h
  have h2 := alphaLoop_mono g (max f g) n s r' (le_max_right f g) h'
  rw [h1] at h2
  exact Option.some_inj.mp h2

lemma alphaLoop_acc : ∀ f n s,
    alphaLoop f n s = (alphaLoop f n 0).map (fun t => t + s) := by
  intro f
  induction f with
  | zero =>
    intro n s
    by_cases h1 : n = 1 <;> simp [alphaLoop, h1]
  | succ f ih =>
    intro n s
    by_cases h1 : n = 1
    · simp [alphaLoop, h1]
    · simp only [alphaLoop, if_neg h1]
      by_cases hodd : n % 2 = 1
      · simp only [if_pos hodd]
        rw [ih _ (s + 2), ih _ (0 + 2)]
        cases alphaLoop f ((3 * n + 1) / 2) 0 with
        | none => simp
        | some t => simp only [Option.map_some']; exact congrArg some (by omega)
      · simp only [if_neg hodd]
        rw [ih _ (s + 1), ih _ (0 + 1)]
        cases alphaLoop f (n / 2) 0 with
        | none => simp
        | some t => simp only [Option.map_some']; exact congrArg some (by omega)

/-- Peeling a block of `z` trailing factors of 2 off the value costs exactly
`z` fuel and `z` steps in the naive loop. -/
lemma alphaLoop_evenBatch : ∀ z f n s,
    alphaLoop (f + z) (n * 2 ^ z) s = alphaLoop f n (s + z) := by
  intro z
  induction z with
  | zero => intro f n s; simp
  | succ z ih =>
    intro f n s
    have hrw : n * 2 ^ (z + 1) = n * 2 ^ z * 2 := by rw [pow_succ, Nat.mul_assoc]
    have heven : n * 2 ^ z * 2 % 2 = 0 := Nat.mul_mod_left _ 2
    have hne : ¬ (n * 2 ^ z * 2 = 1) := by omega
    have hnodd : ¬ (n * 2 ^ z * 2 % 2 = 1) := by omega
    rw [hrw]
    show alphaLoop ((f + z) + 1) (n * 2 ^ z * 2) s = alphaLoop f n (s + (z + 1))
    simp only [alphaLoop, if_neg hne, if_neg hnodd]
    have hdiv : n * 2 ^ z * 2 / 2 = n * 2 ^ z := by omega
    rw [hdiv, ih f n (s + 1)]
    congr 1
    omega

/-- Conversely, a successful naive run starting from `o * 2 ^ k` (with `o`
odd) must first spend `k` fuel and `k` steps halving. -/
lemma alphaLoop_evenBatchRev : ∀ k f o s r, o % 2 = 1 →
    alphaLoop f (o * 2 ^ k) s = some r →
    ∃ g, f = k + g ∧ alphaLoop g o (s + k) = some r := by
  intro k
  induction k with
  | zero =>
    intro f o s r _ h
    exact ⟨f, by omega, by simpa using h⟩
  | succ k ih =>
    intro f o s r hodd h
    have hrw : o * 2 ^ (k + 1) = o * 2 ^ k * 2 := by rw [pow_succ, Nat.mul_assoc]
    have heven : o * 2 ^ k * 2 % 2 = 0 := Nat.mul_mod_left _ 2
    have hne : ¬ (o * 2 ^ k * 2 = 1) := by omega
    have hnodd : ¬ (o * 2 ^ k * 2 % 2 = 1) := by omega
    rw [hrw] at h
    cases f with
    | zero => simp [alphaLoop, hne] at h
    | succ f =>
      simp only [alphaLoop, if_neg hne, if_neg hnodd] at h
      have hdiv : o * 2 ^ k * 2 / 2 = o * 2 ^ k := by omega
      rw [hdiv] at h
      obtain ⟨g, hf, h'⟩ := ih f o (s + 1) r hodd h
      refine ⟨g, by omega, ?_⟩
      rw [show s + (k + 1) = s + 1 + k from by omega]
      exact h'

/-! ### The optimized odd counter `steps::omega_n_is_odd` -/

lemma omegaOddLoop_one : ∀ f s, omegaOddLoop f 1 s = some s := by
  intro f s; cases f <;> simp [omegaOddLoop]

lemma omegaOddLoop_mono : ∀ f g n s r, f ≤ g → omegaOddLoop f n s = some r →
    omegaOddLoop g n s = some r := by
  intro f
  induction f with
  | zero =>
    intro g n s r _ h
    by_cases h1 : n = 1
    · subst h1
      rw [omegaOddLoop_one] at h
      rw [omegaOddLoop_one]
      exact h
    · simp [omegaOddLoop, h1] at h
  | succ f ih =>
    intro g n s r hle h
    by_cases h1 : n = 1
    · subst h1
      rw [omegaOddLoop_one] at h
      rw [omegaOddLoop_one]
      exact h
    · obtain ⟨g', rfl⟩ : ∃ g', g = g' + 1 := ⟨g - 1, by omega⟩
      have hf : f ≤ g' := by omega
      simp only [omegaOddLoop, if_neg h1] at h ⊢
      exact ih g' _ _ _ hf h

lemma omegaOddLoop_ge : ∀ f n s r, omegaOddLoop f n s = some r → s ≤ r := by
  intro f
  induction f with
  | zero =>
    intro n s r h
    by_cases h1 : n = 1
    · subst h1
      rw [omegaOddLoop_one] at h
      have := Option.some_inj.mp h
      omega
    · simp [omegaOddLoop, h1] at h
  | succ f ih =>
    intro n s r h
    by_cases h1 : n = 1
    · rw [h1, omegaOddLoop_one] at h
      have := Option.some_inj.mp h
      omega
    · simp only [omegaOddLoop, if_neg h1] at h
      have := ih _ _ _ h
      omega

/-- The halved value `(3n+1)/2` is the odd part of `3n+1` followed by the
remaining `ctz (3n+1) - 1` factors of 2. -/
lemma half_eq_oddPart_shift {n : Nat} (hodd : n % 2 = 1) :
    (3 * n + 1) / 2
      = (3 * n + 1) / 2 ^ ctz (3 * n + 1) * 2 ^ (ctz (3 * n + 1) - 1) := by
  have hmpos : 0 < 3 * n + 1 := by omega
  have hmeven : (3 * n + 1) % 2 = 0 := by omega
  have hz1 : 1 ≤ ctz (3 * n + 1) := ctz_pos_of_even hmpos hmeven
  obtain ⟨hop, hmul⟩ := ctz_spec (3 * n + 1) hmpos
  have h2 : 2 ^ ctz (3 * n + 1) = 2 ^ (ctz (3 * n + 1) - 1) * 2 := by
    rw [← pow_succ]
    congr 1
    omega
  calc (3 * n + 1) / 2
      = (3 * n + 1) / 2 ^ ctz (3 * n + 1) * 2 ^ ctz (3 * n + 1) / 2 := by rw [hmul]
    _ = (3 * n + 1) / 2 ^ ctz (3 * n + 1) * 2 ^ (ctz (3 * n + 1) - 1) * 2 / 2 := by
        rw [h2, ← Nat.mul_assoc]
    _ = (3 * n + 1) / 2 ^ ctz (3 * n + 1) * 2 ^ (ctz (3 * n + 1) - 1) := by omega

/-- Every successful run of the batched odd loop is matched by a naive run
with the same final step count. -/
lemma omegaOdd_to_alpha : ∀ f n s r, n % 2 = 1 →
    omegaOddLoop f n s = some r → ∃ g, alphaLoop g n s = some r := by
  intro f
  induction f with
  | zero =>
    intro n s r _ h
    by_cases h1 : n = 1
    · subst h1
      rw [omegaOddLoop_one] at h
      exact ⟨0, by simpa [alphaLoop] using h⟩
    · simp [omegaOddLoop, h1] at h
  | succ f ih =>
    intro n s r hodd h
    by_cases h1 : n = 1
    · subst h1
      rw [omegaOddLoop_one] at h
      exact ⟨0, by simpa [alphaLoop] using h⟩
    · have hmpos : 0 < 3 * n + 1 := by omega
      have hmeven : (3 * n + 1) % 2 = 0 := by omega
      have hz1 : 1 ≤ ctz (3 * n + 1) := ctz_pos_of_even hmpos hmeven
      obtain ⟨hop, hmul⟩ := ctz_spec (3 * n + 1) hmpos
      simp only [omegaOddLoop, if_neg h1] at h
      rw [shiftRight_eq_div] at h
      obtain ⟨g, hg⟩ := ih _ _ r hop h
      refine ⟨g + (ctz (3 * n + 1) - 1) + 1, ?_⟩
      simp only [alphaLoop, if_neg h1, if_pos hodd]
      rw [half_eq_oddPart_shift hodd,
        alphaLoop_evenBatch (ctz (3 * n + 1) - 1) g _ (s + 2),
        show s + 2 + (ctz (3 * n + 1) - 1) = s + (ctz (3 * n + 1) + 1) from by omega]
      exact hg

/-- Every successful naive run from an odd value is matched by a batched
run with the same final step count. -/
lemma alpha_to_omegaOdd : ∀ f n s r, n % 2 = 1 →
    alphaLoop f n s = some r → ∃ g, omegaOddLoop g n s = some r := by
  intro f
  induction f using Nat.strong_induction_on with
  | _ f ih =>
    intro n s r hodd h
    by_cases h1 : n = 1
    · subst h1
      rw [alphaLoop_one] at h
      exact ⟨0, by simpa [omegaOddLoop] using h⟩
    · cases f with
      | zero => simp [alphaLoop, h1] at h
      | succ f1 =>
        simp only [alphaLoop, if_neg h1, if_pos hodd] at h
        have hmpos : 0 < 3 * n + 1 := by omega
        have hmeven : (3 * n + 1) % 2 = 0 := by omega
        have hz1 : 1 ≤ ctz (3 * n + 1) := ctz_pos_of_even hmpos hmeven
        obtain ⟨hop, hmul⟩ := ctz_spec (3 * n + 1) hmpos
        rw [half_eq_oddPart_shift hodd] at h
        obtain ⟨f2, hf2, h2⟩ :=
          alphaLoop_evenBatchRev (ctz (3 * n + 1) - 1) f1 _ (s + 2) r hop h
        rw [show s + 2 + (ctz (3 * n + 1) - 1) = s + (ctz (3 * n + 1) + 1)
          from by omega] at h2
        obtain ⟨g, hg⟩ := ih f2 (by omega) _ _ _ hop h2
        refine ⟨g + 1, ?_⟩
        simp only [omegaOddLoop, if_neg h1]
        rw [shiftRight_eq_div]
        exact hg

/-! ### Top-level agreement of `steps::omega` with `steps::alpha` -/

lemma steps_omega_to_alpha {f n s : Nat} (hn : 0 < n)
    (h : steps_omega f n = some s) : ∃ g, steps_alpha g n = some s := by
  by_cases hodd : n % 2 = 1
  · rw [steps_omega, if_pos hodd] at h
    exact omegaOdd_to_alpha f n 0 s hodd h
  · rw [steps_omega, if_neg hodd, steps_omega_n_is_even] at h
    obtain ⟨s', hs', hsum⟩ : ∃ s',
        steps_omega_n_is_odd f (divide_while_even n) = some s' ∧ ctz n + s' = s := by
      cases hx : steps_omega_n_is_odd f (divide_while_even n) with
      | none => rw [hx] at h; simp at h
      | some t =>
        rw [hx] at h
        simp only [Option.map_some'] at h
        exact ⟨t, rfl, Option.some_inj.mp h⟩
    have heven : n % 2 = 0 := by omega
    obtain ⟨hop, hmul⟩ := ctz_spec n hn
    rw [steps_omega_n_is_odd] at hs'
    rw [show divide_while_even n = n / 2 ^ ctz n from by
      rw [divide_while_even, shiftRight_eq_div]] at hs'
    obtain ⟨g, hg⟩ := omegaOdd_to_alpha f _ 0 s' hop hs'
    refine ⟨g + ctz n, ?_⟩
    rw [steps_alpha]
    have hbatch := alphaLoop_evenBatch (ctz n) g (n / 2 ^ ctz n) 0
    rw [hmul] at hbatch
    rw [hbatch, alphaLoop_acc, hg]
    simp only [Option.map_some']
    exact congrArg some (by omega)

lemma steps_alpha_to_omega {f n s : Nat} (hn : 0 < n)
    (h : steps_alpha f n = some s) : ∃ g, steps_omega g n = some s := by
  by_cases hodd : n % 2 = 1
  · obtain ⟨g, hg⟩ := alpha_to_omegaOdd f n 0 s hodd h
    refine ⟨g, ?_⟩
    rw [steps_omega, if_pos hodd]
    exact hg
  · have heven : n % 2 = 0 := by omega
    obtain ⟨hop, hmul⟩ := ctz_spec n hn
    rw [steps_alpha] at h
    rw [← hmul] at h
    obtain ⟨g, hgf, h'⟩ := alphaLoop_evenBatchRev (ctz n) f _ 0 s hop h
    rw [alphaLoop_acc] at h'
    cases hx : alphaLoop g (n / 2 ^ ctz n) 0 with
    | none => rw [hx] at h'; simp at h'
    | some t =>
      rw [hx] at h'
      simp only [Option.map_some'] at h'
      have hts : t + (0 + ctz n) = s := Option.some_inj.mp h'
      obtain ⟨g', hg'⟩ := alpha_to_omegaOdd g _ 0 t hop hx
      refine ⟨g', ?_⟩
      rw [steps_omega, if_neg hodd, steps_omega_n_is_even]
      rw [show divide_while_even n = n / 2 ^ ctz n from by
        rw [divide_while_even, shiftRight_eq_div]]
      rw [steps_omega_n_is_odd, hg']
      simp only [Option.map_some']
      exact congrArg some (by omega)

lemma steps_omega_mono {f g n s : Nat} (hle : f ≤ g)
    (h : steps_omega f n = some s) : steps_omega g n = some s := by
  by_cases hodd : n % 2 = 1
  · rw [steps_omega, if_pos hodd] at h ⊢
    rw [steps_omega_n_is_odd] at h ⊢
    exact omegaOddLoop_mono f g n 0 s hle h
  · rw [steps_omega, if_neg hodd, steps_omega_n_is_even] at h ⊢
    cases hx : steps_omega_n_is_odd f (divide_while_even n) with
    | none => rw [hx] at h; simp at h
    | some t =>
      rw [hx] at h
      rw [steps_omega_n_is_odd] at hx
      have hg : steps_omega_n_is_odd g (divide_while_even n) = some t := by
        rw [steps_omega_n_is_odd]
        exact omegaOddLoop_mono f g _ 0 t hle hx
      rw [hg]
      exact h

lemma steps_omega_det {f g n r r' : Nat} (h : steps_omega f n = some r)
    (h' : steps_omega g n = some r') : r = r' := by
  have h1 := steps_omega_mono (le_max_left f g) h
  have h2 := steps_omega_mono (le_max_right f g) h'
  rw [h1] at h2
  exact Option.some_inj.mp h2

lemma steps_alpha_det {f g n r r' : Nat} (h : steps_alpha f n = some r)
    (h' : steps_alpha g n = some r') : r = r' :=
  alphaLoop_det h h'

/-- C1: for every non-zero n on which the optimized counter `steps::omega`
returns a result, that result is exactly the step count of the naive
reference counter `steps::alpha` — `steps::alpha` terminates on `n` with the
same count, and every terminating run of `steps::alpha` yields that count. -/
theorem steps_omega_agrees_with_steps_alpha (n f s : Nat) (hn : 0 < n)
    (h : steps_omega f n = some s) :
    (∃ g, steps_alpha g n = some s) ∧ ∀ g t, steps_alpha g n = some t → t = s := by
  obtain ⟨g, hg⟩ := steps_omega_to_alpha hn h
  exact ⟨⟨g, hg⟩, fun g' t ht => steps_alpha_det ht hg⟩

/-- Witness for C1 at `n = 3` (7 steps). -/
theorem steps_omega_agrees_with_steps_alpha_witness :
    (∃ g, steps_alpha g 3 = some 7) ∧ ∀ g t, steps_alpha g 3 = some t → t = 7 :=
  steps_omega_agrees_with_steps_alpha 3 20 7 (by decide) (by decide)

/-- C4 counterexample: at the even input `n = 2` the claimed identity
`rules_halve_odds n = rules (rules n)` is false (`1 ≠ 4`). -/
theorem rules_halve_odds_ne_double_rules_at_two :
    (rules_halve_odds 2 = rules (rules 2)) = False :=
  eq_false (by decide)

/-- C4 amended: for every odd `n` (the case the spec's justification covers),
`rules_halve_odds n` equals two successive applications of `rules`. -/
theorem rules_halve_odds_eq_double_rules_of_odd (n : Nat) (h : n % 2 = 1) :
    rules_halve_odds n = rules (rules n) := by
  simp only [rules_halve_odds, rules, if_pos h]
  rw [if_neg (show ¬((3 * n + 1) % 2 = 1) from by omega)]

/-- Witness for amended C4 at `n = 3`. -/
theorem rules_halve_odds_eq_double_rules_of_odd_witness :
    rules_halve_odds 3 = rules (rules 3) :=
  rules_halve_odds_eq_double_rules_of_odd 3 (by decide)

/-- C7: over a `w`-bit unsigned type, `rules::odd_rule` returns `none`
exactly when `3 * n + 1` is not representable (`≥ 2 ^ w`), and otherwise
returns `3 * n + 1`. -/
theorem odd_rule_overflow_spec (w n : Nat) (_hn : 0 < n) (_hodd : n % 2 = 1) :
    (odd_rule w n = none ↔ 2 ^ w ≤ 3 * n + 1) ∧
    ∀ r, odd_rule w n = some r → r = 3 * n + 1 := by
  by_cases h1 : n * 3 < 2 ^ w
  · by_cases h2 : n * 3 + 1 < 2 ^ w
    · simp only [odd_rule, checked_mul, checked_add, if_pos h1, if_pos h2]
      refine ⟨⟨fun hc => by simp at hc, fun hw => by omega⟩, fun r hr => ?_⟩
      have := Option.some_inj.mp hr
      omega
    · simp only [odd_rule, checked_mul, checked_add, if_pos h1, if_neg h2]
      exact ⟨⟨fun _ => by omega, fun _ => trivial⟩, fun r hr => by simp at hr⟩
  · simp only [odd_rule, checked_mul, if_neg h1]
    exact ⟨⟨fun _ => by omega, fun _ => trivial⟩, fun r hr => by simp at hr⟩

/-- Witness for C7 at `w = 4`, `n = 3` (no overflow: `10 < 16`). -/
theorem odd_rule_overflow_spec_witness :
    (odd_rule 4 3 = none ↔ 2 ^ 4 ≤ 3 * 3 + 1) ∧
    ∀ r, odd_rule 4 3 = some r → r = 3 * 3 + 1 :=
  odd_rule_overflow_spec 4 3 (by decide) (by decide)

/-! ### The trajectory walker `transformations` -/

lemma transLoop_ne_nil : ∀ f n, transLoop f n ≠ some [] := by
  intro f n h
  cases f with
  | zero => by_cases h1 : n = 1 <;> simp [transLoop, h1] at h
  | succ f =>
    by_cases h1 : n = 1
    · simp [transLoop, h1] at h
    · simp only [transLoop, if_neg h1] at h
      cases hx : transLoop f (rules n) with
      | none => rw [hx] at h; simp at h
      | some l' => rw [hx] at h; simp at h

lemma transLoop_head : ∀ f n l, transLoop f n = some l → l.head? = some n := by
  intro f n l h
  cases f with
  | zero =>
    simp only [transLoop] at h
    by_cases h1 : n = 1
    · subst h1
      rw [if_pos rfl] at h
      obtain rfl : [1] = l := Option.some_inj.mp h
      rfl
    · rw [if_neg h1] at h
      simp at h
  | succ f =>
    simp only [transLoop] at h
    by_cases h1 : n = 1
    · subst h1
      rw [if_pos rfl] at h
      obtain rfl : [1] = l := Option.some_inj.mp h
      rfl
    · rw [if_neg h1] at h
      cases hx : transLoop f (rules n) with
      | none => rw [hx] at h; simp at h
      | some l' =>
        rw [hx] at h
        simp only [Option.map_some'] at h
        obtain rfl : n :: l' = l := Option.some_inj.mp h
        rfl

lemma transLoop_last : ∀ f n l, transLoop f n = some l → l.getLast? = some 1 := by
  intro f
  induction f with
  | zero =>
    intro n l h
    simp only [transLoop] at h
    by_cases h1 : n = 1
    · rw [if_pos h1] at h
      obtain rfl : [1] = l := Option.some_inj.mp h
      rfl
    · rw [if_neg h1] at h
      simp at h
  | succ f ih =>
    intro n l h
    simp only [transLoop] at h
    by_cases h1 : n = 1
    · rw [if_pos h1] at h
      obtain rfl : [1] = l := Option.some_inj.mp h
      rfl
    · rw [if_neg h1] at h
      cases hx : transLoop f (rules n) with
      | none => rw [hx] at h; simp at h
      | some l' =>
        rw [hx] at h
        simp only [Option.map_some'] at h
        obtain rfl : n :: l' = l := Option.some_inj.mp h
        have hl' := ih _ _ hx
        have hne : l' ≠ [] := fun he => transLoop_ne_nil f (rules n) (he ▸ hx)
        cases l' with
        | nil => exact absurd rfl hne
        | cons a t =>
          rw [List.getLast?_cons_cons]
          exact hl'

lemma transLoop_length_alpha : ∀ f n l, transLoop f n = some l →
    ∃ g, steps_alpha g n = some (l.length - 1) := by
  intro f
  induction f using Nat.strong_induction_on with
  | _ f ih =>
    intro n l h
    by_cases h1 : n = 1
    · subst h1
      have hone : transLoop f 1 = some [1] := by cases f <;> simp [transLoop]
      rw [hone] at h
      obtain rfl : [1] = l := Option.some_inj.mp h
      exact ⟨0, rfl⟩
    · cases f with
      | zero => simp [transLoop, h1] at h
      | succ f1 =>
        simp only [transLoop, if_neg h1] at h
        cases hx : transLoop f1 (rules n) with
        | none => rw [hx] at h; simp at h
        | some l' =>
          rw [hx] at h
          simp only [Option.map_some'] at h
          obtain rfl : n :: l' = l := Option.some_inj.mp h
          by_cases hodd : n % 2 = 1
          · have hr : rules n = 3 * n + 1 := by rw [rules, if_pos hodd]
            rw [hr] at hx
            have hm1 : ¬(3 * n + 1 = 1) := by omega
            cases f1 with
            | zero => simp [transLoop, hm1] at hx
            | succ f2 =>
              simp only [transLoop, if_neg hm1] at hx
              cases hy : transLoop f2 (rules (3 * n + 1)) with
              | none => rw [hy] at hx; simp at hx
              | some l'' =>
                rw [hy] at hx
                simp only [Option.map_some'] at hx
                obtain rfl : (3 * n + 1) :: l'' = l' := Option.some_inj.mp hx
                have hreven : rules (3 * n + 1) = (3 * n + 1) / 2 := by
                  rw [rules, if_neg (show ¬((3 * n + 1) % 2 = 1) from by omega)]
                rw [hreven] at hy
                obtain ⟨g, hg⟩ := ih f2 (by omega) _ _ hy
                refine ⟨g + 1, ?_⟩
                rw [steps_alpha]
                simp only [alphaLoop, if_neg h1, if_pos hodd]
                simp only [steps_alpha] at hg
                rw [alphaLoop_acc, hg]
                have hlen : 0 < l''.length :=
                  List.length_pos.mpr (fun he => transLoop_ne_nil f2 _ (he ▸ hy))
                simp only [Option.map_some', List.length_cons]
                exact congrArg some (by omega)
          · have hr : rules n = n / 2 := by rw [rules, if_neg hodd]
            rw [hr] at hx
            obtain ⟨g, hg⟩ := ih f1 (by omega) _ _ hx
            refine ⟨g + 1, ?_⟩
            rw [steps_alpha]
            simp only [alphaLoop, if_neg h1, if_neg hodd]
            simp only [steps_alpha] at hg
            rw [alphaLoop_acc, hg]
            have hlen : 0 < l'.length :=
              List.length_pos.mpr (fun he => transLoop_ne_nil f1 _ (he ▸ hx))
            simp only [Option.map_some', List.length_cons]
            exact congrArg some (by omega)

/-- C6: a successful run of `transformations` on non-zero n yields a list
that starts at `n`, ends with `1`, and whose length is `steps_omega n + 1`:
`steps_omega` succeeds with exactly `length - 1`, and every successful
`steps_omega` run yields `length - 1`. -/
theorem transformations_to_one_spec (f n : Nat) (l : List Nat) (hn : 0 < n)
    (h : transformations f n = some l) :
    l.head? = some n ∧ l.getLast? = some 1 ∧
      (∃ g s, steps_omega g n = some s ∧ l.length = s + 1) ∧
      ∀ g s, steps_omega g n = some s → l.length = s + 1 := by
  rw [transformations] at h
  refine ⟨transLoop_head f n l h, transLoop_last f n l h, ?_, ?_⟩
  · obtain ⟨g, hg⟩ := transLoop_length_alpha f n l h
    obtain ⟨g', hg'⟩ := steps_alpha_to_omega hn hg
    have hlen : 0 < l.length :=
      List.length_pos.mpr (fun he => transLoop_ne_nil f n (he ▸ h))
    exact ⟨g', l.length - 1, hg', by omega⟩
  · intro g s hs
    obtain ⟨ga, hga⟩ := transLoop_length_alpha f n l h
    obtain ⟨g2, hg2⟩ := steps_omega_to_alpha hn hs
    have hda := steps_alpha_det hga hg2
    have hlen : 0 < l.length :=
      List.length_pos.mpr (fun he => transLoop_ne_nil f n (he ▸ h))
    omega

/-- Witness for C6 at `n = 4`: `transformations` yields `[4, 2, 1]`. -/
theorem transformations_to_one_spec_witness :
    ([4, 2, 1] : List Nat).head? = some 4 ∧
      ([4, 2, 1] : List Nat).getLast? = some 1 ∧
      (∃ g s, steps_omega g 4 = some s ∧ ([4, 2, 1] : List Nat).length = s + 1) ∧
      ∀ g s, steps_omega g 4 = some s → ([4, 2, 1] : List Nat).length = s + 1 :=
  transformations_to_one_spec 10 4 [4, 2, 1] (by decide) (by decide)

/-! ### Record tracking (`bouncy_numbers`) -/

lemma bouncyAlphaLoop_mono : ∀ l f g rn rs r, f ≤ g →
    bouncyAlphaLoop f l rn rs = some r → bouncyAlphaLoop g l rn rs = some r := by
  intro l
  induction l with
  | nil => intro f g rn rs r _ h; exact h
  | cons i rest ih =>
    intro f g rn rs r hle h
    simp only [bouncyAlphaLoop] at h ⊢
    cases hx : steps_omega f i with
    | none => rw [hx] at h; simp at h
    | some s =>
      rw [hx] at h
      rw [steps_omega_mono hle hx]
      simp only [] at h ⊢
      by_cases hlt : rs < s
      · rw [if_pos hlt] at h ⊢
        exact ih f g _ _ _ hle h
      · rw [if_neg hlt] at h ⊢
        exact ih f g _ _ _ hle h

lemma steps_omega_pos {f n s : Nat} (h2 : 2 ≤ n) (h : steps_omega f n = some s) :
    1 ≤ s := by
  by_cases hodd : n % 2 = 1
  · rw [steps_omega, if_pos hodd, steps_omega_n_is_odd] at h
    have h1 : ¬(n = 1) := by omega
    cases f with
    | zero => simp [omegaOddLoop, h1] at h
    | succ f =>
      simp only [omegaOddLoop, if_neg h1] at h
      have := omegaOddLoop_ge _ _ _ _ h
      omega
  · rw [steps_omega, if_neg hodd, steps_omega_n_is_even] at h
    cases hx : steps_omega_n_is_odd f (divide_while_even n) with
    | none => rw [hx] at h; simp at h
    | some t =>
      rw [hx] at h
      simp only [Option.map_some'] at h
      have hz : 1 ≤ ctz n := ctz_pos_of_even (by omega) (by omega)
      have := Option.some_inj.mp h
      omega

/-- Relation between the record-sequence loop and the max-record loop: on the
same inputs, either nothing was emitted and the max loop returns its initial
record unchanged, or the last emitted pair is the max loop's result. -/
lemma bouncySeq_alpha_last : ∀ l f rn rs out p,
    bouncySeqLoop f l rs = some out → bouncyAlphaLoop f l rn rs = some p →
    (out = [] ∧ p = (rn, rs)) ∨ out.getLast? = some p := by
  intro l
  induction l with
  | nil =>
    intro f rn rs out p hseq halpha
    obtain rfl : ([] : List (Nat × Nat)) = out := Option.some_inj.mp hseq
    left
    exact ⟨rfl, (Option.some_inj.mp halpha).symm⟩
  | cons i rest ih =>
    intro f rn rs out p hseq halpha
    simp only [bouncySeqLoop] at hseq
    simp only [bouncyAlphaLoop] at halpha
    cases hx : steps_omega f i with
    | none => rw [hx] at hseq; simp at hseq
    | some s =>
      rw [hx] at hseq halpha
      simp only [] at hseq halpha
      by_cases hlt : rs < s
      · rw [if_pos hlt] at hseq halpha
        cases hy : bouncySeqLoop f rest s with
        | none => rw [hy] at hseq; simp at hseq
        | some out' =>
          rw [hy] at hseq
          simp only [Option.map_some'] at hseq
          obtain rfl : (i, s) :: out' = out := Option.some_inj.mp hseq
          rcases ih f i s out' p hy halpha with ⟨rfl, rfl⟩ | hlast
          · right; simp
          · right
            cases out' with
            | nil => simp at hlast
            | cons a t =>
              rw [List.getLast?_cons_cons]
              exact hlast
      · rw [if_neg hlt] at hseq halpha
        exact ih f rn rs out p hseq halpha

/-- If the record-sequence loop emits nothing, all step counts in the range
were at most the initial record. -/
lemma bouncySeqLoop_nil_bound : ∀ l f rs, bouncySeqLoop f l rs = some [] →
    ∀ i ∈ l, ∃ s, steps_omega f i = some s ∧ s ≤ rs := by
  intro l
  induction l with
  | nil => intro f rs _ i hi; simp at hi
  | cons j rest ih =>
    intro f rs h i hi
    simp only [bouncySeqLoop] at h
    cases hx : steps_omega f j with
    | none => rw [hx] at h; simp at h
    | some s =>
      rw [hx] at h
      simp only [] at h
      by_cases hlt : rs < s
      · rw [if_pos hlt] at h
        cases hy : bouncySeqLoop f rest s with
        | none => rw [hy] at h; simp at h
        | some out' => rw [hy] at h; simp at h
      · rw [if_neg hlt] at h
        rcases List.mem_cons.mp hi with rfl | hmem
        · exact ⟨s, hx, by omega⟩
        · exact ih f rs h i hmem

/-- Every emitted record strictly exceeds the initial record, and the emitted
step counts are strictly increasing. -/
lemma bouncySeqLoop_chain : ∀ l f rs out, bouncySeqLoop f l rs = some out →
    (∀ p ∈ out, rs < p.2) ∧ out.Chain' (fun a b => a.2 < b.2) := by
  intro l
  induction l with
  | nil =>
    intro f rs out h
    obtain rfl : ([] : List (Nat × Nat)) = out := Option.some_inj.mp h
    exact ⟨by simp, by simp⟩
  | cons i rest ih =>
    intro f rs out h
    simp only [bouncySeqLoop] at h
    cases hx : steps_omega f i with
    | none => rw [hx] at h; simp at h
    | some s =>
      rw [hx] at h
      simp only [] at h
      by_cases hlt : rs < s
      · rw [if_pos hlt] at h
        cases hy : bouncySeqLoop f rest s with
        | none => rw [hy] at h; simp at h
        | some out' =>
          rw [hy] at h
          simp only [Option.map_some'] at h
          obtain rfl : (i, s) :: out' = out := Option.some_inj.mp h
          obtain ⟨hbound, hchain⟩ := ih f s out' hy
          constructor
          · intro p hp
            rcases List.mem_cons.mp hp with rfl | hmem
            · exact hlt
            · have := hbound p hmem
              omega
          · rw [List.chain'_cons']
            exact ⟨fun b hb => hbound b (List.mem_of_mem_head? hb), hchain⟩
      · rw [if_neg hlt] at h
        obtain ⟨hbound, hchain⟩ := ih f rs out h
        refine ⟨fun p hp => hbound p hp, hchain⟩

/-- C8: every successful run of `calculate_bouncy_sequence` emits pairs with
strictly increasing step counts. -/
theorem bouncy_sequence_steps_strictly_increasing (f start stop : Nat)
    (out : List (Nat × Nat))
    (h : calculate_bouncy_sequence f start stop = some out) :
    out.Chain' (fun a b => a.2 < b.2) := by
  rw [calculate_bouncy_sequence] at h
  exact (bouncySeqLoop_chain _ f 0 out h).2

/-- Witness for C8 on the range [1, 10). -/
theorem bouncy_sequence_steps_strictly_increasing_witness :
    ([(2, 1), (3, 7), (6, 8), (7, 16), (9, 19)] : List (Nat × Nat)).Chain'
      (fun a b => a.2 < b.2) :=
  bouncy_sequence_steps_strictly_increasing 100 1 10 _ (by decide)

/-- C2 counterexample: `find_max_record` on [1, 10) does not return
`(7, 16)` (the value 9 needs 19 > 16 steps). -/
theorem find_max_record_one_to_ten_not_seven_sixteen :
    (bouncy_numbers_alpha 100 1 10 = some (7, 16)) = False :=
  eq_false (by decide)

/-- C2 amended: `find_max_record` on [1, 10) returns `(9, 19)` — the value 9
with step count 19 is the maximum-step-count holder in that range — and every
successful run returns that pair. -/
theorem find_max_record_one_to_ten :
    bouncy_numbers_alpha 100 1 10 = some (9, 19) ∧
      ∀ f r, bouncy_numbers_alpha f 1 10 = some r → r = (9, 19) := by
  have h100 : bouncy_numbers_alpha 100 1 10 = some (9, 19) := by decide
  refine ⟨h100, fun f r h => ?_⟩
  rw [bouncy_numbers_alpha] at h h100
  have h1 := bouncyAlphaLoop_mono _ f (max f 100) 0 0 r (le_max_left _ _) h
  have h2 := bouncyAlphaLoop_mono _ 100 (max f 100) 0 0 _ (le_max_right _ _) h100
  rw [h1] at h2
  exact Option.some_inj.mp h2

/-- Witness for amended C2: the universal part applied at fuel 100. -/
theorem find_max_record_one_to_ten_witness : ((9, 19) : Nat × Nat) = (9, 19) :=
  find_max_record_one_to_ten.2 100 (9, 19) find_max_record_one_to_ten.1

/-- C9: on the range [1, 2) every step count is 0, so `find_max_record`
returns the initial record `(0, 0)` untouched — and the reported value 0 is
not a member of the scanned range. -/
theorem find_max_record_all_zero_steps (f : Nat) :
    bouncy_numbers_alpha f 1 2 = some (0, 0) ∧
      (0 : Nat) ∉ List.range' 1 (2 - 1) := by
  constructor
  · cases f <;> rfl
  · decide

/-- Witness for C9 at fuel 5. -/
theorem find_max_record_all_zero_steps_witness :
    bouncy_numbers_alpha 5 1 2 = some (0, 0) ∧
      (0 : Nat) ∉ List.range' 1 (2 - 1) :=
  find_max_record_all_zero_steps 5

/-- C5 counterexample: on the range [1, 2) the record sequence is empty (it
has no last element) while `find_max_record` returns `(0, 0)`. -/
theorem bouncy_sequence_empty_at_one_two :
    calculate_bouncy_sequence 10 1 2 = some [] ∧
      Option.map List.getLast? (calculate_bouncy_sequence 10 1 2) = some none ∧
      bouncy_numbers_alpha 10 1 2 = some (0, 0) :=
  ⟨by decide, by decide, by decide⟩

/-- C5 amended: for every range [start, stop) with 1 ≤ start < stop other
than [1, 2) (the only range whose record sequence is empty), the last element
of `calculate_bouncy_sequence` equals the pair returned by
`find_max_record`. -/
theorem bouncy_sequence_last_eq_max_record (f start stop : Nat)
    (seq : List (Nat × Nat)) (p : Nat × Nat)
    (h1 : 1 ≤ start) (h2 : start < stop) (h3 : ¬(start = 1 ∧ stop = 2))
    (hseq : calculate_bouncy_sequence f start stop = some seq)
    (halpha : bouncy_numbers_alpha f start stop = some p) :
    seq.getLast? = some p := by
  rw [calculate_bouncy_sequence] at hseq
  rw [bouncy_numbers_alpha] at halpha
  rcases bouncySeq_alpha_last _ f 0 0 seq p hseq halpha with ⟨rfl, rfl⟩ | hlast
  · exfalso
    have hall := bouncySeqLoop_nil_bound _ f 0 hseq
    by_cases hs1 : start = 1
    · have hstop : 3 ≤ stop := by omega
      have hmem : (2 : Nat) ∈ List.range' start (stop - start) := by
        rw [List.mem_range'_1]
        omega
      obtain ⟨s, hsx, hle⟩ := hall 2 hmem
      have := steps_omega_pos (by omega) hsx
      omega
    · have hmem : start ∈ List.range' start (stop - start) := by
        rw [List.mem_range'_1]
        omega
      obtain ⟨s, hsx, hle⟩ := hall start hmem
      have := steps_omega_pos (by omega) hsx
      omega
  · exact hlast

/-- Witness for amended C5 on the range [1, 10) at fuel 100. -/
theorem bouncy_sequence_last_eq_max_record_witness :
    ([(2, 1), (3, 7), (6, 8), (7, 16), (9, 19)] : List (Nat × Nat)).getLast?
      = some (9, 19) :=
  bouncy_sequence_last_eq_max_record 100 1 10 _ _ (by decide) (by decide)
    (by decide) (by decide) (by decide)

/-! ### `decrease_steps::alpha` and `check_range_omega_all_odds` -/

lemma rules_pos {n : Nat} (h : 0 < n) : 0 < rules n := by
  rw [rules]
  by_cases hodd : n % 2 = 1
  · rw [if_pos hodd]; omega
  · rw [if_neg hodd]; omega

lemma decreaseLoop_one_none : ∀ f n s, 1 ≤ n → decreaseLoop f 1 n s = none := by
  intro f
  induction f with
  | zero =>
    intro n s h
    simp only [decreaseLoop]
    rw [if_neg (by omega : ¬(n < 1))]
  | succ f ih =>
    intro n s h
    simp only [decreaseLoop]
    rw [if_neg (by omega : ¬(n < 1))]
    exact ih (rules n) (s + 1) (rules_pos (by omega))

lemma decreaseLoop_zero_none : ∀ f s, decreaseLoop f 0 0 s = none := by
  intro f
  induction f with
  | zero => intro s; simp [decreaseLoop]
  | succ f ih =>
    intro s
    simp only [decreaseLoop]
    rw [if_neg (by omega : ¬(0 < 0))]
    rw [show rules 0 = 0 from by simp [rules]]
    exact ih (s + 1)

/-- C10: the counter `decrease_steps::alpha` never terminates on input 1 — the loop
condition (current value ≥ starting value) never becomes false, so the fuel
always runs out — hence termination is possible only under the precondition
`n ≥ 2`. -/
theorem decrease_steps_alpha_diverges_at_one :
    (∀ f, decrease_steps_alpha f 1 = none) ∧
      ∀ n f s, decrease_steps_alpha f n = some s → 2 ≤ n := by
  constructor
  · intro f
    rw [decrease_steps_alpha]
    exact decreaseLoop_one_none f 1 0 (by omega)
  · intro n f s h
    by_contra hlt
    push_neg at hlt
    interval_cases n
    · rw [decrease_steps_alpha, decreaseLoop_zero_none] at h
      simp at h
    · rw [decrease_steps_alpha, decreaseLoop_one_none f 1 0 (by omega)] at h
      simp at h

/-- Witness for C10: divergence at 1 with fuel 3, and termination at `n = 4`
(which indeed satisfies `2 ≤ 4`). -/
theorem decrease_steps_alpha_diverges_at_one_witness :
    decrease_steps_alpha 3 1 = none ∧ 2 ≤ 4 :=
  ⟨decrease_steps_alpha_diverges_at_one.1 3,
   decrease_steps_alpha_diverges_at_one.2 4 2 1 (by decide)⟩

/-- C3: the function `check_range_omega_all_odds` asserts that `step` is ODD, so calling
it with the even step required by the spec (here `step = 2` on `[1, 10)`,
visiting exactly the odd values) hits the failed assertion (modelled `none`,
a panic) for every fuel, instead of completing and returning `true`. -/
theorem check_range_omega_all_odds_even_step_fails (f : Nat) :
    check_range_omega_all_odds f 1 10 2 = none := rfl

/-- Witness for C3 at fuel 3. -/
theorem check_range_omega_all_odds_even_step_fails_witness :
    check_range_omega_all_odds 3 1 10 2 = none :=
  check_range_omega_all_odds_even_step_fails 3
